import Mathlib

/-!
Verification of the Enigma rotor-cipher simulator (`enigma.py` and
`Principles_of_Programming/EnigmaAdvanced.py`).

Shallow embedding conventions:
* Alphabet symbols are represented by their index: for the classic machine
  the 26 letters `A`..`Z` are `0`..`25`; for the extended machine the
  36-symbol lineup `A`..`Z`,`0`..`9` is `0`..`35` (letters `0`..`25`,
  digits `26`..`35`), matching `AdvancedRotor.lineup`.
* Python `%` on integers is `Int.emod` (both return a result with the sign
  of the modulus).
* Python exceptions are modelled by `Except PyErr` / `Option` results; the
  distinct exception classes that the claims care about are enumerated in
  `PyErr`.
* Python `set` containers with a documented iteration-independent meaning
  are modelled as `List`s carrying the class invariant.
-/

/-- The Python exception classes distinguished by the code under study. -/
inductive PyErr where
  | valueError
  | typeError
  | attributeError
  | nameError
  deriving DecidableEq, Repr

/-- Letter-to-index conversion for the classic 26-letter alphabet:
`'A'..'Z'` become `0..25` (`ord c - ord 'A'`). -/
def abcIdx (c : Char) : Nat := c.toNat - 65

/-- `Rotor` (`enigma.py`): `mapping` is the wiring as a list indexed by
alphabet position (entries are alphabet indices), `ring` the ring setting
(1..26), `position` the current rotational position (alphabet index of the
position letter) and `notch` the optional notch (alphabet index). -/
structure Rotor where
  mapping : List Nat
  ring : Nat
  position : Nat
  notch : Option Nat
  deriving DecidableEq, Repr, Inhabited

namespace Rotor

/-- `Rotor.advance_position`: `'Z'` wraps to `'A'`, otherwise the next
letter (`chr(ord(position) + 1)`). -/
def advance_position (r : Rotor) : Rotor :=
  { r with position := if r.position = 25 then 0 else r.position + 1 }

/-- `Rotor.check_notch`: true iff the current position equals the notch
(`position == self.notch`; always false when the notch is `None`). -/
def check_notch (r : Rotor) : Bool := r.notch == some r.position

/-- `Rotor.encode_right_to_left`: apply the wiring directly
(`self.mapping[ord(char) - ord('A')]`). -/
def encode_right_to_left (r : Rotor) (c : Nat) : Nat := r.mapping.getD c 0

/-- `Rotor.encode_left_to_right`: apply the inverse wiring directly
(`self.mapping.index(char)`, the first index whose entry is `char`). -/
def encode_left_to_right (r : Rotor) (c : Nat) : Nat := r.mapping.indexOf c

/-- `Rotor.encode_offset_rtl`: shift the input index by the ring/position
offset, apply the wiring, shift back, all mod 26. -/
def encode_offset_rtl (r : Rotor) (c : Nat) : Nat :=
  let offset : Int := (r.position : Int) - (r.ring : Int) + 1
  let offset_char : Nat := (((c : Int) + offset) % 26).toNat
  let encode_char : Nat := r.encode_right_to_left offset_char
  (((encode_char : Int) - offset) % 26).toNat

/-- `Rotor.encode_offset_ltr`: same shift conjugation around the inverse
wiring. -/
def encode_offset_ltr (r : Rotor) (c : Nat) : Nat :=
  let offset : Int := (r.position : Int) - (r.ring : Int) + 1
  let offset_char : Nat := (((c : Int) + offset) % 26).toNat
  let encode_char : Nat := r.encode_left_to_right offset_char
  (((encode_char : Int) - offset) % 26).toNat

end Rotor

/-- `reflectorCheck M keys` is the loop at the end of `Rotor.valid_reflector`:
`dic` maps the key `abc[i]` to `mapping[i]`, so for the key with index `k`,
`dic[key]` is `M[k]` and `list(dic.keys())[list(dic.values()).index(key)]` is
the letter with index `M.index(k)`.  A key that does not occur among the
values makes `list.index` raise `ValueError`, modelled by `none`. -/
def reflectorCheck (M : List Nat) : List Nat → Option Bool
  | [] => some true
  | k :: ks =>
    if k ∈ M then
      if M.getD k 0 ≠ M.indexOf k then some false else reflectorCheck M ks
    else none

/-- `Rotor.valid_reflector`: `False` when a notch is present, otherwise the
key-by-key check of the zipped dictionary over the 26 alphabet keys. -/
def Rotor.valid_reflector (r : Rotor) : Option Bool :=
  match r.notch with
  | some _ => some false
  | none => reflectorCheck r.mapping (List.range 26)

/-- A `PlugLead` stores its unordered pair `{first, last}` normalised with
`first = min`, `last = max` (as the Python class does); structural equality
of normalised leads coincides with the Python `__eq__` on pair sets. -/
structure PlugLead where
  first : Nat
  last : Nat
  deriving DecidableEq, Repr, Inhabited

/-- `PlugLead.encode`: the partner symbol when the input belongs to the
pair, otherwise the input unchanged. -/
def PlugLead.encode (pl : PlugLead) (c : Nat) : Nat :=
  if c = pl.first then pl.last else if c = pl.last then pl.first else c

/-- `Plugboard` state: the set of connected leads and the set of letters
ever occupied by a lead, both modelled as duplicate-free lists. -/
structure Plugboard where
  connections : List PlugLead
  occupied_letters : List Nat
  deriving DecidableEq, Repr, Inhabited

/-- Python `set.add` on a list model: append the element if absent. -/
def insertNat (l : List Nat) (x : Nat) : List Nat := if x ∈ l then l else l ++ [x]

/-- Python `set.add` for leads. -/
def insertLead (l : List PlugLead) (x : PlugLead) : List PlugLead :=
  if x ∈ l then l else l ++ [x]

namespace Plugboard

/-- `Plugboard.connection_limit` (classic machine). -/
def connection_limit : Nat := 10

/-- `Plugboard.add`.  Branches in source order: when both letters of the
lead are already occupied, the `raise ValueError(f"The letters
{pl.__first_letter} ...")` statement evaluates its f-string first, and
inside `class Plugboard` the attribute name `pl.__first_letter` is mangled
to `pl._Plugboard__first_letter`, which does not exist on a `PlugLead` —
so this branch actually raises `AttributeError` while formatting the
message.  The single-letter branches interpolate the correctly mangled
`pl._PlugLead__first_letter` and raise their `ValueError`.  The
"already connected" warning and the capacity warning do not change state;
at the capacity limit the method returns without adding. -/
def add (pb : Plugboard) (pl : PlugLead) : Except PyErr Plugboard :=
  if pl.first ∈ pb.occupied_letters ∧ pl.last ∈ pb.occupied_letters then
    .error .attributeError
  else if pl.first ∈ pb.occupied_letters then
    .error .valueError
  else if pl.last ∈ pb.occupied_letters then
    .error .valueError
  else if pb.connections.length ≥ connection_limit then
    .ok pb
  else
    .ok ⟨insertLead pb.connections pl,
         insertNat (insertNat pb.occupied_letters pl.first) pl.last⟩

/-- `Plugboard.remove`: erase the lead if connected (leaving
`occupied_letters` untouched), otherwise `ValueError`. -/
def remove (pb : Plugboard) (pl : PlugLead) : Except PyErr Plugboard :=
  if pl ∈ pb.connections then
    .ok ⟨pb.connections.erase pl, pb.occupied_letters⟩
  else
    .error .valueError

/-- Helper for `reset`: re-add leads one by one; an exception stops the
loop with the partially rebuilt state (as a raised exception would leave
`self`). -/
def addAll (pb : Plugboard) : List PlugLead → Plugboard × Option PyErr
  | [] => (pb, none)
  | pl :: rest =>
    match pb.add pl with
    | .error e => (pb, some e)
    | .ok pb' => addAll pb' rest

/-- `Plugboard.reset`: replace `connections` by the empty set — leaving
`occupied_letters` untouched — then add the optional fresh leads. -/
def reset (pb : Plugboard) (leads : Option (List PlugLead)) :
    Plugboard × Option PyErr :=
  let base : Plugboard := ⟨[], pb.occupied_letters⟩
  match leads with
  | none => (base, none)
  | some ls => addAll base ls

/-- The loop body of `Plugboard.encode`: each lead is tested for
membership of the symbol, and the final iteration (`i == len`) encodes
unconditionally; an empty connection set falls through to the
`raise ValueError` after the loop (`none`). -/
def encodeList : List PlugLead → Nat → Option Nat
  | [], _ => none
  | [pl], c => some (pl.encode c)
  | pl :: rest, c =>
    if c = pl.first ∨ c = pl.last then some (pl.encode c) else encodeList rest c

/-- `Plugboard.encode`. -/
def encode (pb : Plugboard) (c : Nat) : Option Nat := encodeList pb.connections c

end Plugboard

namespace Commercial_enigma

/-- `Commercial_enigma.rotate`: read the notch states of the two rightmost
rotors, always advance the rightmost, advance the second-rightmost when
the rightmost was at its notch, and when the second-rightmost was at its
notch advance it (only if the rightmost was not) together with the
third-rightmost.  Python's negative indices `-1`, `-2`, `-3` are
`length - 1`, `length - 2`, `length - 3`. -/
def rotate (rs : List Rotor) : List Rotor :=
  let n := rs.length
  let rot1 := (rs.getD (n - 1) default).notch == some (rs.getD (n - 1) default).position
  let rot2 := (rs.getD (n - 2) default).notch == some (rs.getD (n - 2) default).position
  let rs1 := rs.set (n - 1) (rs.getD (n - 1) default).advance_position
  let rs2 := if rot1 then rs1.set (n - 2) (rs1.getD (n - 2) default).advance_position else rs1
  if rot2 then
    let rs3 := if ¬rot1 then rs2.set (n - 2) (rs2.getD (n - 2) default).advance_position else rs2
    rs3.set (n - 3) (rs3.getD (n - 3) default).advance_position
  else rs2

/-- `Commercial_enigma.encode`: rotate, then the right-to-left pass over
`rotors[-1], ..., rotors[-len]` (the reversed list, reflector last), then
the left-to-right pass over `rotors[1], ..., rotors[len-1]`. -/
def encode (rs : List Rotor) (c : Nat) : List Rotor × Nat :=
  let rs' := rotate rs
  let c1 := rs'.reverse.foldl (fun x r => r.encode_offset_rtl x) c
  let c2 := (rs'.drop 1).foldl (fun x r => r.encode_offset_ltr x) c1
  (rs', c2)

/-- `Commercial_enigma.encode_string`: fold `encode` over the string,
threading the rotor state. -/
def encode_string (rs : List Rotor) (s : List Nat) : List Rotor × List Nat :=
  match s with
  | [] => (rs, [])
  | c :: cs =>
    let p := encode rs c
    let q := encode_string p.1 cs
    (q.1, p.2 :: q.2)

end Commercial_enigma

/-- The fields of a `Commercial_enigma` relevant to `swap_rotors`:
`__init__` stores `ring_length = len(rotors) - 1` and
`position_length = len(rotors) - 1`, both plain integers. -/
structure CEState where
  rotors : List Rotor
  ring_length : Int
  position_length : Int

/-- A fragment of Python's `len`: defined on lists, a `TypeError` on
integers. -/
inductive PyVal where
  | vint : Int → PyVal
  | vlist : List PyVal → PyVal

/-- Python `len` applied to a value: lists have a length, calling `len` on
an `int` raises `TypeError`. -/
def pyLen : PyVal → Except PyErr Nat
  | .vint _ => .error .typeError
  | .vlist l => .ok l.length

/-- `Commercial_enigma.swap_rotors`: the 4-or-5 length guard, then the
guard `len(rotors) != len(self.ring_length) + 1 or len(rotors) !=
len(self.position_length) + 1`, whose first conjunct applies `len` to the
integer `ring_length`; `build` stands for the `Rotor` constructor used in
the final (unreachable) list comprehension. -/
def Commercial_enigma.swap_rotors {α : Type} (m : CEState) (rotors : List α)
    (build : α → Rotor) : Except PyErr CEState :=
  if ¬(rotors.length = 4 ∨ rotors.length = 5) then .error .valueError
  else
    match pyLen (.vint m.ring_length) with
    | .error e => .error e
    | .ok k =>
      if rotors.length ≠ k + 1 then .error .valueError
      else
        match pyLen (.vint m.position_length) with
        | .error e => .error e
        | .ok k' =>
          if rotors.length ≠ k' + 1 then .error .valueError
          else .ok { m with rotors := rotors.map build }

/-- `Enigma` state: the rotor machine plus the optional plugboard. -/
structure EnigmaState where
  ce : List Rotor
  pb : Option Plugboard

namespace Enigma

/-- `Enigma.encode`: without a plugboard, delegate to the machine; with
one, plugboard → machine → plugboard.  A plugboard `ValueError` before the
machine call leaves the rotors unrotated; after it, the rotated state is
kept (the exception propagates from a mutated `self`). -/
def encode (e : EnigmaState) (c : Nat) : EnigmaState × Option Nat :=
  match e.pb with
  | none =>
    let p := Commercial_enigma.encode e.ce c
    ({ e with ce := p.1 }, some p.2)
  | some pb =>
    match pb.encode c with
    | none => (e, none)
    | some c1 =>
      let p := Commercial_enigma.encode e.ce c1
      match pb.encode p.2 with
      | none => ({ e with ce := p.1 }, none)
      | some c2 => ({ e with ce := p.1 }, some c2)

/-- `Enigma.encode_string`: fold `encode`; an exception aborts the loop,
keeping the machine state reached so far. -/
def encode_string (e : EnigmaState) (s : List Nat) :
    EnigmaState × Option (List Nat) :=
  match s with
  | [] => (e, some [])
  | c :: cs =>
    match encode e c with
    | (e1, none) => (e1, none)
    | (e1, some d) =>
      match encode_string e1 cs with
      | (e2, none) => (e2, none)
      | (e2, some ds) => (e2, some (d :: ds))

end Enigma

/-- A rotor wiring that is a permutation of the 26 alphabet indices. -/
def Perm26 (M : List Nat) : Prop :=
  M.length = 26 ∧ M.Nodup ∧ ∀ x ∈ M, x < 26

/-- The wiring, as the function `i ↦ M[i]`, is an involution on the
alphabet. -/
def Involution26 (M : List Nat) : Prop :=
  ∀ i < 26, M.getD (M.getD i 0) 0 = i

/-- A rotor in a legal machine state: permutation wiring and an in-range
position. -/
def ValidRotor (r : Rotor) : Prop := Perm26 r.mapping ∧ r.position < 26

/-- A legal `Commercial_enigma` state: 4 or 5 rotors, each valid, the
head rotor (the reflector) with involutive wiring. -/
def ValidMachine (rs : List Rotor) : Prop :=
  (rs.length = 4 ∨ rs.length = 5) ∧ (∀ r ∈ rs, ValidRotor r) ∧
    Involution26 (rs.getD 0 default).mapping

/-- A legal lead: two distinct alphabet letters, stored normalised. -/
def ValidLead (pl : PlugLead) : Prop := pl.first < pl.last ∧ pl.last < 26

/-- No letter occurs in two distinct connected leads. -/
def LeadsDisjoint (l : List PlugLead) : Prop :=
  l.Pairwise (fun p q =>
    p.first ≠ q.first ∧ p.first ≠ q.last ∧ p.last ≠ q.first ∧ p.last ≠ q.last)

/-- The plugboard invariant maintained by `add`. -/
def ValidPB (pb : Plugboard) : Prop :=
  (∀ pl ∈ pb.connections, ValidLead pl) ∧ LeadsDisjoint pb.connections

/-- Wiring of rotor `I` (`enigma.py` line 130), as alphabet indices. -/
def rotorIMapping : List Nat :=
  "EKMFLGDQVZNTOWYHXUSPAIBRCJ".toList.map abcIdx

/-- Rotor `I` with ring `r` and position letter index `p`
(notch `'Q'` = 16). -/
def rotorI (r p : Nat) : Rotor := ⟨rotorIMapping, r, p, some 16⟩

/-- Wiring of rotor `II` (`enigma.py` line 134), notch `'E'` = 4. -/
def rotorIIMapping : List Nat :=
  "AJDKSIRUXBLHWTMCQGZNPYFVOE".toList.map abcIdx

/-- Wiring of rotor `III` (`enigma.py` line 138), notch `'V'` = 21. -/
def rotorIIIMapping : List Nat :=
  "BDFHJLCPRTXVZNYEIWGAKMUSQO".toList.map abcIdx

/-- Wiring of reflector `B` (`enigma.py` line 162). -/
def reflBMapping : List Nat :=
  "YRUHQSLDPXNGOKMIEBFZCWVJAT".toList.map abcIdx

/-- A concrete valid machine: reflector `B` and rotors `I`, `II`, `III`,
rings 1, positions `'A'`. -/
def machineB123 : List Rotor :=
  [⟨reflBMapping, 1, 0, none⟩,
   ⟨rotorIMapping, 1, 0, some 16⟩,
   ⟨rotorIIMapping, 1, 0, some 4⟩,
   ⟨rotorIIIMapping, 1, 0, some 21⟩]

/-! ### Modular-shift arithmetic -/

lemma toNat_emod26 (a : Int) : (((a % 26).toNat : Int)) = a % 26 :=
  Int.toNat_of_nonneg (Int.emod_nonneg _ (by norm_num))

lemma emod26_toNat_lt (a : Int) : (a % 26).toNat < 26 := by
  have h1 : a % 26 < 26 := Int.emod_lt_of_pos _ (by norm_num)
  have h2 : 0 ≤ a % 26 := Int.emod_nonneg _ (by norm_num)
  omega

lemma shift26_sub (o : Int) (c : Nat) (h : c < 26) :
    (((((((c : Int) + o) % 26).toNat : Int) - o) % 26).toNat = c) := by
  rw [toNat_emod26]
  rw [Int.sub_emod, Int.emod_emod_of_dvd _ (dvd_refl 26), ← Int.sub_emod,
    add_sub_cancel_right]
  rw [Int.emod_eq_of_lt (by positivity) (by exact_mod_cast h)]
  exact Int.toNat_natCast c

lemma shift26_add (o : Int) (c : Nat) (h : c < 26) :
    (((((((c : Int) - o) % 26).toNat : Int) + o) % 26).toNat = c) := by
  rw [toNat_emod26]
  rw [Int.add_emod, Int.emod_emod_of_dvd _ (dvd_refl 26), ← Int.add_emod,
    sub_add_cancel]
  rw [Int.emod_eq_of_lt (by positivity) (by exact_mod_cast h)]
  exact Int.toNat_natCast c

/-! ### Permutation wirings -/

lemma Perm26.mem_of_lt {M : List Nat} (h : Perm26 M) {c : Nat} (hc : c < 26) :
    c ∈ M := by
  obtain ⟨hl, hn, hm⟩ := h
  have hsub : M.toFinset ⊆ Finset.range 26 := by
    intro x hx; simpa using hm x (List.mem_toFinset.mp hx)
  have hcard : (Finset.range 26).card ≤ M.toFinset.card := by
    rw [List.toFinset_card_of_nodup hn, hl, Finset.card_range]
  have heq := Finset.eq_of_subset_of_card_le hsub hcard
  have : c ∈ M.toFinset := by rw [heq]; simpa using hc
  exact List.mem_toFinset.mp this

lemma Perm26.getD_lt {M : List Nat} (h : Perm26 M) {i : Nat} (hi : i < 26) :
    M.getD i 0 < 26 := by
  have hi' : i < M.length := by rw [h.1]; exact hi
  rw [List.getD_eq_getElem M 0 hi']
  exact h.2.2 _ (List.getElem_mem hi')

lemma Perm26.indexOf_lt {M : List Nat} (h : Perm26 M) {c : Nat} (hc : c < 26) :
    M.indexOf c < 26 := by
  have hlt := List.indexOf_lt_length.2 (h.mem_of_lt hc)
  rw [h.1] at hlt
  exact hlt

lemma Perm26.getD_indexOf {M : List Nat} (h : Perm26 M) {c : Nat} (hc : c < 26) :
    M.getD (M.indexOf c) 0 = c := by
  have hm : c ∈ M := h.mem_of_lt hc
  have hlt : M.indexOf c < M.length := List.indexOf_lt_length.2 hm
  rw [List.getD_eq_getElem M 0 hlt]
  exact List.getElem_indexOf hlt

lemma Perm26.indexOf_getD {M : List Nat} (h : Perm26 M) {i : Nat} (hi : i < 26) :
    M.indexOf (M.getD i 0) = i := by
  have hi' : i < M.length := by rw [h.1]; exact hi
  rw [List.getD_eq_getElem M 0 hi']
  exact List.indexOf_getElem h.2.1 i hi'

/-! ### Per-rotor inversion -/

lemma Rotor.encode_offset_rtl_lt (r : Rotor) (c : Nat) :
    r.encode_offset_rtl c < 26 := emod26_toNat_lt _

lemma Rotor.encode_offset_ltr_lt (r : Rotor) (c : Nat) :
    r.encode_offset_ltr c < 26 := emod26_toNat_lt _

lemma Rotor.ltr_rtl (r : Rotor) (h : Perm26 r.mapping) {c : Nat} (hc : c < 26) :
    r.encode_offset_ltr (r.encode_offset_rtl c) = c := by
  simp only [Rotor.encode_offset_rtl, Rotor.encode_offset_ltr,
    Rotor.encode_right_to_left, Rotor.encode_left_to_right]
  set o : Int := (r.position : Int) - (r.ring : Int) + 1 with ho
  set j : Nat := (((c : Int) + o) % 26).toNat with hj
  have hjlt : j < 26 := by rw [hj]; exact emod26_toNat_lt _
  set e : Nat := r.mapping.getD j 0 with he
  have helt : e < 26 := by rw [he]; exact h.getD_lt hjlt
  have h1 : (((((e : Int) - o) % 26).toNat : Int) + o) % 26 = (e : Int) := by
    have hs := shift26_add o e helt
    have hnn : (0:Int) ≤ (((((e : Int) - o) % 26).toNat : Int) + o) % 26 :=
      Int.emod_nonneg _ (by norm_num)
    omega
  rw [h1, Int.toNat_natCast]
  rw [he, h.indexOf_getD hjlt]
  rw [hj]
  exact shift26_sub o c hc

lemma Rotor.rtl_ltr (r : Rotor) (h : Perm26 r.mapping) {c : Nat} (hc : c < 26) :
    r.encode_offset_rtl (r.encode_offset_ltr c) = c := by
  simp only [Rotor.encode_offset_rtl, Rotor.encode_offset_ltr,
    Rotor.encode_right_to_left, Rotor.encode_left_to_right]
  set o : Int := (r.position : Int) - (r.ring : Int) + 1 with ho
  set j : Nat := (((c : Int) + o) % 26).toNat with hj
  have hjlt : j < 26 := by rw [hj]; exact emod26_toNat_lt _
  set e : Nat := r.mapping.indexOf j with he
  have helt : e < 26 := by rw [he]; exact h.indexOf_lt hjlt
  have h1 : (((((e : Int) - o) % 26).toNat : Int) + o) % 26 = (e : Int) := by
    have hs := shift26_add o e helt
    have hnn : (0:Int) ≤ (((((e : Int) - o) % 26).toNat : Int) + o) % 26 :=
      Int.emod_nonneg _ (by norm_num)
    omega
  rw [h1, Int.toNat_natCast]
  rw [he, h.getD_indexOf hjlt]
  rw [hj]
  exact shift26_sub o c hc

lemma Rotor.rtl_invol (r : Rotor) (h : Perm26 r.mapping)
    (hinv : Involution26 r.mapping) {c : Nat} (hc : c < 26) :
    r.encode_offset_rtl (r.encode_offset_rtl c) = c := by
  simp only [Rotor.encode_offset_rtl, Rotor.encode_right_to_left]
  set o : Int := (r.position : Int) - (r.ring : Int) + 1 with ho
  set j : Nat := (((c : Int) + o) % 26).toNat with hj
  have hjlt : j < 26 := by rw [hj]; exact emod26_toNat_lt _
  set e : Nat := r.mapping.getD j 0 with he
  have helt : e < 26 := by rw [he]; exact h.getD_lt hjlt
  have h1 : (((((e : Int) - o) % 26).toNat : Int) + o) % 26 = (e : Int) := by
    have hs := shift26_add o e helt
    have hnn : (0:Int) ≤ (((((e : Int) - o) % 26).toNat : Int) + o) % 26 :=
      Int.emod_nonneg _ (by norm_num)
    omega
  rw [h1, Int.toNat_natCast]
  rw [he, hinv j hjlt]
  rw [hj]
  exact shift26_sub o c hc

example : (rotorI 1 1).encode_offset_rtl (abcIdx 'J') = abcIdx 'M' := by decide

/-! ### The two substitution passes of `Commercial_enigma.encode` -/

/-- The per-symbol substitution of `Commercial_enigma.encode` at a fixed
(already rotated) rotor state: right-to-left through the reversed rotor
list, then left-to-right through `rotors[1:]`. -/
def substitute (rs : List Rotor) (c : Nat) : Nat :=
  (rs.drop 1).foldl (fun x r => r.encode_offset_ltr x)
    (rs.reverse.foldl (fun x r => r.encode_offset_rtl x) c)

lemma encode_eq_substitute (rs : List Rotor) (c : Nat) :
    Commercial_enigma.encode rs c =
      (Commercial_enigma.rotate rs, substitute (Commercial_enigma.rotate rs) c) := rfl

lemma passA_lt (L : List Rotor) {c : Nat} (hc : c < 26) :
    L.reverse.foldl (fun x r => r.encode_offset_rtl x) c < 26 := by
  cases L with
  | nil => simpa using hc
  | cons r t =>
    rw [List.reverse_cons, List.foldl_append]
    simpa using Rotor.encode_offset_rtl_lt r _

lemma passB_lt (L : List Rotor) {c : Nat} (hc : c < 26) :
    L.foldl (fun x r => r.encode_offset_ltr x) c < 26 := by
  induction L generalizing c with
  | nil => simpa using hc
  | cons r t ih =>
    rw [List.foldl_cons]
    exact ih (Rotor.encode_offset_ltr_lt r c)

lemma passBA (L : List Rotor) (hL : ∀ r ∈ L, Perm26 r.mapping) {c : Nat}
    (hc : c < 26) :
    L.foldl (fun x r => r.encode_offset_ltr x)
      (L.reverse.foldl (fun x r => r.encode_offset_rtl x) c) = c := by
  induction L generalizing c with
  | nil => simp
  | cons r t ih =>
    rw [List.reverse_cons, List.foldl_append]
    simp only [List.foldl_cons, List.foldl_nil]
    rw [Rotor.ltr_rtl r (hL r (List.mem_cons_self _ _)) (passA_lt t hc)]
    exact ih (fun r' hr' => hL r' (List.mem_cons_of_mem _ hr')) hc

lemma passAB (L : List Rotor) (hL : ∀ r ∈ L, Perm26 r.mapping) {c : Nat}
    (hc : c < 26) :
    L.reverse.foldl (fun x r => r.encode_offset_rtl x)
      (L.foldl (fun x r => r.encode_offset_ltr x) c) = c := by
  induction L generalizing c with
  | nil => simp
  | cons r t ih =>
    rw [List.reverse_cons, List.foldl_append]
    simp only [List.foldl_cons, List.foldl_nil]
    rw [ih (fun r' hr' => hL r' (List.mem_cons_of_mem _ hr'))
      (Rotor.encode_offset_ltr_lt r c)]
    exact Rotor.rtl_ltr r (hL r (List.mem_cons_self _ _)) hc

/-- The per-symbol substitution validity: nonempty rotor list, permutation
wirings, involutive reflector at the head. -/
def SubstValid (rs : List Rotor) : Prop :=
  rs ≠ [] ∧ (∀ r ∈ rs, Perm26 r.mapping) ∧
    Involution26 ((rs.getD 0 default).mapping)

lemma substitute_cons (h₀ : Rotor) (t : List Rotor) (c : Nat) :
    substitute (h₀ :: t) c =
      t.foldl (fun x r => r.encode_offset_ltr x)
        (h₀.encode_offset_rtl
          (t.reverse.foldl (fun x r => r.encode_offset_rtl x) c)) := by
  simp [substitute, List.foldl_append]

lemma substitute_lt (rs : List Rotor) {c : Nat} (hc : c < 26) :
    substitute rs c < 26 := by
  cases rs with
  | nil => simpa [substitute] using hc
  | cons h₀ t =>
    rw [substitute_cons]
    exact passB_lt t (Rotor.encode_offset_rtl_lt h₀ _)

lemma substitute_invol (rs : List Rotor) (h : SubstValid rs) {c : Nat}
    (hc : c < 26) : substitute rs (substitute rs c) = c := by
  obtain ⟨hne, hperm, hinv⟩ := h
  obtain ⟨h₀, t, rfl⟩ := List.exists_cons_of_ne_nil hne
  have htail : ∀ r ∈ t, Perm26 r.mapping :=
    fun r hr => hperm r (List.mem_cons_of_mem _ hr)
  have hperm₀ : Perm26 h₀.mapping := hperm h₀ (List.mem_cons_self _ _)
  have hinv₀ : Involution26 h₀.mapping := by simpa using hinv
  rw [substitute_cons, substitute_cons]
  rw [passAB t htail (Rotor.encode_offset_rtl_lt h₀ _)]
  rw [Rotor.rtl_invol h₀ hperm₀ hinv₀ (passA_lt t hc)]
  exact passBA t htail hc

/-! ### Stepping preserves machine validity -/

lemma getD_set_ite (l : List Rotor) (i j : Nat) (x : Rotor) :
    (l.set i x).getD j default =
      if i = j ∧ j < l.length then x else l.getD j default := by
  rcases eq_or_ne i j with rfl | hne
  · by_cases hi : i < l.length
    · simp only [hi, and_true, if_pos rfl]
      rw [List.getD_eq_getElem?_getD, List.getElem?_set_self hi]
      rfl
    · simp only [hi, and_false, if_false]
      rw [List.set_eq_of_length_le (by omega)]
  · simp only [hne, false_and, if_false]
    rw [List.getD_eq_getElem?_getD, List.getElem?_set_ne hne,
      ← List.getD_eq_getElem?_getD]

lemma set_adv_exists {rs l : List Rotor}
    (H : ∀ j, ∃ k, l.getD j default =
      Rotor.advance_position^[k] (rs.getD j default)) (i : Nat) :
    ∀ j, ∃ k, (l.set i (l.getD i default).advance_position).getD j default =
      Rotor.advance_position^[k] (rs.getD j default) := by
  intro j
  rw [getD_set_ite]
  by_cases hij : i = j ∧ j < l.length
  · obtain ⟨k, hk⟩ := H i
    rw [if_pos hij, hij.1] at *
    exact ⟨k + 1, by rw [Function.iterate_succ_apply', ← hk]⟩
  · rw [if_neg hij]
    exact H j

lemma rotate_getD_advance (rs : List Rotor) (j : Nat) :
    ∃ k, (Commercial_enigma.rotate rs).getD j default =
      Rotor.advance_position^[k] (rs.getD j default) := by
  have H0 : ∀ j, ∃ k, rs.getD j default =
      Rotor.advance_position^[k] (rs.getD j default) := fun j => ⟨0, rfl⟩
  simp only [Commercial_enigma.rotate]
  split_ifs <;>
    first
      | exact set_adv_exists (set_adv_exists (set_adv_exists (set_adv_exists H0 _) _) _) _ j
      | exact set_adv_exists (set_adv_exists (set_adv_exists H0 _) _) _ j
      | exact set_adv_exists (set_adv_exists H0 _) _ j
      | exact set_adv_exists H0 _ j

lemma rotate_length (rs : List Rotor) :
    (Commercial_enigma.rotate rs).length = rs.length := by
  simp only [Commercial_enigma.rotate]
  split_ifs <;> simp [List.length_set]

lemma advance_iterate_mapping (r : Rotor) (k : Nat) :
    (Rotor.advance_position^[k] r).mapping = r.mapping := by
  induction k with
  | zero => rfl
  | succ k ih => rw [Function.iterate_succ_apply']; exact ih

lemma advance_iterate_valid (r : Rotor) (k : Nat) (h : ValidRotor r) :
    ValidRotor (Rotor.advance_position^[k] r) := by
  induction k with
  | zero => exact h
  | succ k ih =>
    rw [Function.iterate_succ_apply']
    obtain ⟨hm, hp⟩ := ih
    refine ⟨hm, ?_⟩
    simp only [Rotor.advance_position]
    split_ifs <;> omega

lemma getD_mem (l : List Rotor) (i : Nat) (hi : i < l.length) :
    l.getD i default ∈ l := by
  rw [List.getD_eq_getElem l default hi]
  exact List.getElem_mem hi

lemma rotate_valid {rs : List Rotor} (h : ValidMachine rs) :
    ValidMachine (Commercial_enigma.rotate rs) := by
  obtain ⟨hlen, hrot, hinv⟩ := h
  refine ⟨by rw [rotate_length]; exact hlen, ?_, ?_⟩
  · intro r hr
    obtain ⟨i, hi, hie⟩ := List.mem_iff_getElem.mp hr
    have hgd : (Commercial_enigma.rotate rs).getD i default = r := by
      rw [List.getD_eq_getElem _ default hi]; exact hie
    obtain ⟨k, hk⟩ := rotate_getD_advance rs i
    have hi' : i < rs.length := by rw [← rotate_length rs]; exact hi
    have : ValidRotor (rs.getD i default) := hrot _ (getD_mem rs i hi')
    rw [← hgd, hk]
    exact advance_iterate_valid _ k this
  · obtain ⟨k, hk⟩ := rotate_getD_advance rs 0
    rw [hk, advance_iterate_mapping]
    exact hinv

lemma ValidMachine.substValid {rs : List Rotor} (h : ValidMachine rs) :
    SubstValid rs := by
  refine ⟨?_, fun r hr => (h.2.1 r hr).1, h.2.2⟩
  intro hnil
  rw [hnil] at h
  rcases h.1 with h1 | h1 <;> simp at h1

lemma encode_string_cons (rs : List Rotor) (c : Nat) (cs : List Nat) :
    Commercial_enigma.encode_string rs (c :: cs) =
      ((Commercial_enigma.encode_string (Commercial_enigma.rotate rs) cs).1,
        substitute (Commercial_enigma.rotate rs) c ::
          (Commercial_enigma.encode_string (Commercial_enigma.rotate rs) cs).2) := rfl

/-- Machine-level round trip: from identical starting rotor states,
encoding the encoded string returns the original. -/
lemma encode_string_inverse (rs : List Rotor) (h : ValidMachine rs)
    (s : List Nat) (hs : ∀ c ∈ s, c < 26) :
    (Commercial_enigma.encode_string rs
      (Commercial_enigma.encode_string rs s).2).2 = s := by
  induction s generalizing rs with
  | nil => rfl
  | cons c cs ih =>
    have hc : c < 26 := hs c (List.mem_cons_self _ _)
    have hv' : ValidMachine (Commercial_enigma.rotate rs) := rotate_valid h
    rw [encode_string_cons]
    rw [encode_string_cons]
    simp only []
    rw [substitute_invol _ hv'.substValid hc]
    rw [ih (Commercial_enigma.rotate rs) hv'
      (fun x hx => hs x (List.mem_cons_of_mem _ hx))]

/-! ### Plugboard encoding as a total function -/

/-- Specification function for `Plugboard.encode` on a nonempty board: the
partner in the first lead containing the symbol, otherwise the symbol. -/
def pbFun : List PlugLead → Nat → Nat
  | [], c => c
  | pl :: rest, c =>
    if c = pl.first ∨ c = pl.last then pl.encode c else pbFun rest c

lemma pbFun_cons (pl : PlugLead) (rest : List PlugLead) (c : Nat) :
    pbFun (pl :: rest) c =
      if c = pl.first ∨ c = pl.last then pl.encode c else pbFun rest c := rfl

lemma encodeList_single (pl : PlugLead) (c : Nat) :
    Plugboard.encodeList [pl] c = some (pl.encode c) := rfl

lemma encodeList_pair (pl pl2 : PlugLead) (rest2 : List PlugLead) (c : Nat) :
    Plugboard.encodeList (pl :: pl2 :: rest2) c =
      if c = pl.first ∨ c = pl.last then some (pl.encode c)
      else Plugboard.encodeList (pl2 :: rest2) c := rfl

lemma encodeList_eq_pbFun (conns : List PlugLead) (hne : conns ≠ []) (c : Nat) :
    Plugboard.encodeList conns c = some (pbFun conns c) := by
  induction conns with
  | nil => cases hne rfl
  | cons pl rest ih =>
    cases rest with
    | nil =>
      rw [encodeList_single, pbFun_cons]
      split_ifs with h
      · rfl
      · push_neg at h
        simp [PlugLead.encode, h.1, h.2, pbFun]
    | cons pl2 rest2 =>
      rw [encodeList_pair, pbFun_cons]
      split_ifs with h
      · rfl
      · exact ih (by simp)

lemma pbFun_cases (l : List PlugLead) (c : Nat) :
    pbFun l c = c ∨ ∃ pl ∈ l, (c = pl.first ∧ pbFun l c = pl.last) ∨
      (c = pl.last ∧ pbFun l c = pl.first) := by
  induction l with
  | nil => left; rfl
  | cons pl rest ih =>
    rw [pbFun_cons]
    split_ifs with h
    · right
      refine ⟨pl, List.mem_cons_self _ _, ?_⟩
      by_cases hf : c = pl.first
      · left; exact ⟨hf, by simp [PlugLead.encode, hf]⟩
      · have hl : c = pl.last := h.resolve_left hf
        right; exact ⟨hl, by simp [PlugLead.encode, hf, hl]⟩
    · rcases ih with h1 | ⟨pl', hm, h2⟩
      · left; exact h1
      · right; exact ⟨pl', List.mem_cons_of_mem _ hm, h2⟩

lemma pbFun_invol (l : List PlugLead) (hv : ∀ pl ∈ l, pl.first ≠ pl.last)
    (hd : LeadsDisjoint l) (c : Nat) : pbFun l (pbFun l c) = c := by
  induction l with
  | nil => rfl
  | cons pl rest ih =>
    have hvt : ∀ p ∈ rest, p.first ≠ p.last :=
      fun p hp => hv p (List.mem_cons_of_mem _ hp)
    have hd' := List.pairwise_cons.mp hd
    have hne : pl.first ≠ pl.last := hv pl (List.mem_cons_self _ _)
    rw [pbFun_cons pl rest c]
    split_ifs with h
    · by_cases hf : c = pl.first
      · have h1 : pl.encode c = pl.last := by simp [PlugLead.encode, hf]
        rw [h1, pbFun_cons, if_pos (Or.inr rfl), hf]
        simp [PlugLead.encode, Ne.symm hne]
      · have hl : c = pl.last := h.resolve_left hf
        have h1 : pl.encode c = pl.first := by simp [PlugLead.encode, hf, hl]
        rw [h1, pbFun_cons, if_pos (Or.inl rfl), hl]
        simp [PlugLead.encode]
    · have hnotin : ¬(pbFun rest c = pl.first ∨ pbFun rest c = pl.last) := by
        rcases pbFun_cases rest c with hx | ⟨pl', hm', hx⟩
        · rw [hx]; exact h
        · have hrel := hd'.1 pl' hm'
          rcases hx with ⟨hc', hres⟩ | ⟨hc', hres⟩ <;> rw [hres] <;> omega
      rw [pbFun_cons, if_neg hnotin]
      exact ih hvt hd'.2

lemma pbFun_lt (l : List PlugLead) (hL : ∀ pl ∈ l, ValidLead pl) {c : Nat}
    (hc : c < 26) : pbFun l c < 26 := by
  rcases pbFun_cases l c with hx | ⟨pl', hm', hx⟩
  · rw [hx]; exact hc
  · have hv := hL pl' hm'
    rcases hx with ⟨_, hres⟩ | ⟨_, hres⟩ <;> rw [hres] <;>
      simp only [ValidLead] at hv <;> omega

lemma pbFun_connected (l : List PlugLead) (hv : ∀ p ∈ l, p.first ≠ p.last)
    (hd : LeadsDisjoint l) (pl : PlugLead) (hm : pl ∈ l) :
    pbFun l pl.first = pl.last ∧ pbFun l pl.last = pl.first := by
  induction l with
  | nil => cases hm
  | cons q rest ih =>
    have hd' := List.pairwise_cons.mp hd
    rcases List.mem_cons.mp hm with rfl | hm'
    · have hne : pl.first ≠ pl.last := hv pl (List.mem_cons_self _ _)
      constructor
      · rw [pbFun_cons, if_pos (Or.inl rfl)]
        simp [PlugLead.encode]
      · rw [pbFun_cons, if_pos (Or.inr rfl)]
        simp [PlugLead.encode, Ne.symm hne]
    · have hrel := hd'.1 pl hm'
      have hn1 : ¬(pl.first = q.first ∨ pl.first = q.last) := by omega
      have hn2 : ¬(pl.last = q.first ∨ pl.last = q.last) := by omega
      rw [pbFun_cons, if_neg hn1, pbFun_cons, if_neg hn2]
      exact ih (fun p hp => hv p (List.mem_cons_of_mem _ hp)) hd'.2 hm'

lemma pbFun_unconnected (l : List PlugLead) (c : Nat)
    (h : ∀ pl ∈ l, c ≠ pl.first ∧ c ≠ pl.last) : pbFun l c = c := by
  induction l with
  | nil => rfl
  | cons q rest ih =>
    have hq := h q (List.mem_cons_self _ _)
    rw [pbFun_cons, if_neg (by omega)]
    exact ih (fun p hp => h p (List.mem_cons_of_mem _ hp))

/-! ### The Enigma facade with optional plugboard -/

/-- Validity of the optional plugboard of an `Enigma`: either absent, or
carrying at least one lead, all leads well-formed and symbol-disjoint. -/
def ValidPBOpt : Option Plugboard → Prop
  | none => True
  | some pb => pb.connections ≠ [] ∧ (∀ pl ∈ pb.connections, ValidLead pl) ∧
      LeadsDisjoint pb.connections

/-- A valid `Enigma` configuration: valid machine, valid optional
plugboard. -/
def ValidEnigma (e : EnigmaState) : Prop := ValidMachine e.ce ∧ ValidPBOpt e.pb

/-- The per-symbol function computed by `Enigma.encode` at a fixed
(already rotated) rotor state under the optional plugboard. -/
def eChar (pb : Option Plugboard) (rs : List Rotor) (c : Nat) : Nat :=
  match pb with
  | none => substitute rs c
  | some pb => pbFun pb.connections (substitute rs (pbFun pb.connections c))

lemma enigma_encode_eq (e : EnigmaState) (hpb : ValidPBOpt e.pb) (c : Nat) :
    Enigma.encode e c =
      (⟨Commercial_enigma.rotate e.ce, e.pb⟩,
        some (eChar e.pb (Commercial_enigma.rotate e.ce) c)) := by
  obtain ⟨ce, pb⟩ := e
  cases pb with
  | none => rfl
  | some pb =>
    obtain ⟨hne, _, _⟩ := hpb
    simp only [Enigma.encode, Plugboard.encode, eChar,
      encodeList_eq_pbFun _ hne, encode_eq_substitute]

lemma validLead_ne {l : List PlugLead} (hL : ∀ pl ∈ l, ValidLead pl) :
    ∀ pl ∈ l, pl.first ≠ pl.last := by
  intro pl hm
  have := hL pl hm
  simp only [ValidLead] at this
  omega

lemma eChar_lt (pb : Option Plugboard) (rs : List Rotor)
    (hpb : ValidPBOpt pb) {c : Nat} (hc : c < 26) : eChar pb rs c < 26 := by
  cases pb with
  | none => exact substitute_lt rs hc
  | some pb =>
    obtain ⟨_, hL, _⟩ := hpb
    exact pbFun_lt _ hL (substitute_lt rs (pbFun_lt _ hL hc))

lemma eChar_invol (pb : Option Plugboard) (rs : List Rotor)
    (hpb : ValidPBOpt pb) (hrs : SubstValid rs) {c : Nat} (hc : c < 26) :
    eChar pb rs (eChar pb rs c) = c := by
  cases pb with
  | none => exact substitute_invol rs hrs hc
  | some pb =>
    obtain ⟨_, hL, hd⟩ := hpb
    simp only [eChar]
    rw [pbFun_invol _ (validLead_ne hL) hd]
    rw [substitute_invol rs hrs (pbFun_lt _ hL hc)]
    exact pbFun_invol _ (validLead_ne hL) hd c

/-- The total specification of a successful `Enigma.encode_string` run:
rotor state and output threaded per symbol. -/
def eString (pb : Option Plugboard) (rs : List Rotor) :
    List Nat → List Rotor × List Nat
  | [] => (rs, [])
  | c :: cs =>
    let rs' := Commercial_enigma.rotate rs
    let q := eString pb rs' cs
    (q.1, eChar pb rs' c :: q.2)

lemma enigma_encode_string_eq (e : EnigmaState) (hpb : ValidPBOpt e.pb)
    (s : List Nat) :
    Enigma.encode_string e s =
      (⟨(eString e.pb e.ce s).1, e.pb⟩, some (eString e.pb e.ce s).2) := by
  induction s generalizing e with
  | nil => obtain ⟨ce, pb⟩ := e; rfl
  | cons c cs ih =>
    have h1 := enigma_encode_eq e hpb c
    have h2 := ih ⟨Commercial_enigma.rotate e.ce, e.pb⟩ hpb
    simp only [Enigma.encode_string, h1, h2]
    rfl

lemma eString_inverse (pb : Option Plugboard) (rs : List Rotor)
    (hv : ValidMachine rs) (hpb : ValidPBOpt pb) (s : List Nat)
    (hs : ∀ c ∈ s, c < 26) :
    (eString pb rs (eString pb rs s).2).2 = s := by
  induction s generalizing rs with
  | nil => rfl
  | cons c cs ih =>
    have hc : c < 26 := hs c (List.mem_cons_self _ _)
    have hv' : ValidMachine (Commercial_enigma.rotate rs) := rotate_valid hv
    show (eString pb rs
      (eChar pb (Commercial_enigma.rotate rs) c ::
        (eString pb (Commercial_enigma.rotate rs) cs).2)).2 = c :: cs
    rw [eString]
    simp only []
    rw [eChar_invol pb _ hpb hv'.substValid hc]
    rw [ih (Commercial_enigma.rotate rs) hv'
      (fun x hx => hs x (List.mem_cons_of_mem _ hx))]

/-! ### Claim C1: the cipher is self-inverse -/

/-- The plugboard of the repository's own demonstration: leads `SZ`, `GT`,
`DV`, `KU` (indices), with its occupied-letter set. -/
def pbSGDK : Plugboard :=
  ⟨[⟨18, 25⟩, ⟨6, 19⟩, ⟨3, 21⟩, ⟨10, 20⟩], [18, 25, 6, 19, 3, 21, 10, 20]⟩

lemma machineB123_valid : ValidMachine machineB123 := by
  unfold ValidMachine ValidRotor Perm26 Involution26
  exact ⟨by decide, by decide, by decide⟩

lemma pbSGDK_valid : ValidPBOpt (some pbSGDK) := by
  unfold ValidPBOpt ValidLead LeadsDisjoint
  exact ⟨by decide, by decide, by decide⟩

/-- Claim C1, amended: for every valid machine configuration —
reflector-first rotor list of 4 or 5 rotors with permutation wirings and
an involutive reflector, and an optional plugboard that, when present,
carries at least one lead (a plugboard constructed with an empty lead list
makes every `encode` raise, see the counterexample) — and every string
over the alphabet, encoding the string and then encoding the resulting
ciphertext from the identical fresh initial configuration returns the
original string. -/
theorem C1_enigma_round_trip (e : EnigmaState) (hv : ValidEnigma e)
    (s : List Nat) (hs : ∀ c ∈ s, c < 26) :
    ∃ ct, (Enigma.encode_string e s).2 = some ct ∧
      (Enigma.encode_string e ct).2 = some s := by
  refine ⟨(eString e.pb e.ce s).2, ?_, ?_⟩
  · rw [enigma_encode_string_eq e hv.2 s]
  · rw [enigma_encode_string_eq e hv.2]
    simp only []
    rw [eString_inverse e.pb e.ce hv.1 hv.2 s hs]

/-- Claim C1, counterexample: `Enigma(rotors, rings, positions,
plugboard=[])` is a machine configuration with a (present but lead-less)
plugboard; on it every `encode` call raises `ValueError` inside
`Plugboard.encode` (the loop over the empty connection set never returns),
so encoding the plaintext `"A"` produces an exception (`none`) instead of
a ciphertext and the round trip claimed for every valid configuration with
an optional plugboard fails. -/
theorem C1_counterexample :
    (Enigma.encode_string ⟨machineB123, some ⟨[], []⟩⟩ [0]).2 = none := rfl

/-- Witness for C1: the concrete round trip on plaintext `"HELLO"` with
reflector `B`, rotors `I`, `II`, `III` and plugboard `SZ GT DV KU`. -/
theorem C1_witness :
    ∃ ct, (Enigma.encode_string ⟨machineB123, some pbSGDK⟩
        [7, 4, 11, 11, 14]).2 = some ct ∧
      (Enigma.encode_string ⟨machineB123, some pbSGDK⟩ ct).2 =
        some [7, 4, 11, 11, 14] :=
  C1_enigma_round_trip ⟨machineB123, some pbSGDK⟩
    ⟨machineB123_valid, pbSGDK_valid⟩ _ (by decide)

/-! ### Claim C7: the double-step anomaly -/

/-- Claim C7: if, before a call to `rotate`, the rightmost rotor sits at
its notch and the second-rightmost rotor sits at its notch, then that
single call replaces exactly the three rightmost rotors by their
single-step advances (each advanced exactly once — in particular the
second-rightmost is not advanced twice) and leaves every other rotor
untouched. -/
theorem C7_double_step (rs : List Rotor)
    (hlen : rs.length = 4 ∨ rs.length = 5)
    (h1 : (rs.getD (rs.length - 1) default).notch =
      some (rs.getD (rs.length - 1) default).position)
    (h2 : (rs.getD (rs.length - 2) default).notch =
      some (rs.getD (rs.length - 2) default).position) :
    Commercial_enigma.rotate rs =
      ((rs.set (rs.length - 1)
          (rs.getD (rs.length - 1) default).advance_position).set
        (rs.length - 2)
          (rs.getD (rs.length - 2) default).advance_position).set
        (rs.length - 3)
          (rs.getD (rs.length - 3) default).advance_position := by
  have hn4 : 4 ≤ rs.length := by rcases hlen with h | h <;> omega
  have hb1 : ((rs.getD (rs.length - 1) default).notch ==
      some (rs.getD (rs.length - 1) default).position) = true :=
    beq_iff_eq.mpr h1
  have hb2 : ((rs.getD (rs.length - 2) default).notch ==
      some (rs.getD (rs.length - 2) default).position) = true :=
    beq_iff_eq.mpr h2
  have e1 : (rs.set (rs.length - 1)
      (rs.getD (rs.length - 1) default).advance_position).getD
        (rs.length - 2) default = rs.getD (rs.length - 2) default := by
    rw [getD_set_ite, if_neg (by omega)]
  have e2 : ((rs.set (rs.length - 1)
      (rs.getD (rs.length - 1) default).advance_position).set
        (rs.length - 2)
          (rs.getD (rs.length - 2) default).advance_position).getD
        (rs.length - 3) default = rs.getD (rs.length - 3) default := by
    rw [getD_set_ite]
    rw [if_neg (by simp [List.length_set]; omega)]
    rw [getD_set_ite, if_neg (by omega)]
  simp only [Commercial_enigma.rotate, hb1, hb2, if_true, not_true,
    if_false, e1, e2]

/-! ### Claim C8: the ring/position offset transform -/

/-- The right-to-left offset transform exactly as the specification words
it: the offset is reduced `mod 26` up front, the input index is shifted by
`+offset mod 26`, the wiring applied, the result shifted by `-offset mod
26`. -/
def encode_offset_rtl_spec (r : Rotor) (c : Nat) : Nat :=
  let offset : Int := ((r.position : Int) - (r.ring : Int) + 1) % 26
  let shifted : Nat := (((c : Int) + offset) % 26).toNat
  let mapped : Nat := r.encode_right_to_left shifted
  (((mapped : Int) - offset) % 26).toNat

/-- Claim C8: for every rotor, `encode_offset_rtl` computes the
specification transform — offset `(index(position) - ring + 1) mod 26`,
shift in by `+offset`, wiring, shift out by `-offset`, all mod 26 — and in
particular rotor `I` with ring 1 and position `'B'` maps `'J'` to `'M'`. -/
theorem C8_offset_rtl :
    (∀ (r : Rotor) (c : Nat),
      r.encode_offset_rtl c = encode_offset_rtl_spec r c) ∧
    (rotorI 1 1).encode_offset_rtl (abcIdx 'J') = abcIdx 'M' := by
  constructor
  · intro r c
    simp only [Rotor.encode_offset_rtl, encode_offset_rtl_spec]
    have h1 : ((c : Int) + ((r.position : Int) - (r.ring : Int) + 1)) % 26 =
        ((c : Int) + ((r.position : Int) - (r.ring : Int) + 1) % 26) % 26 := by
      conv_lhs => rw [Int.add_emod]
      conv_rhs => rw [Int.add_emod, Int.emod_emod_of_dvd _ (dvd_refl 26)]
    rw [h1]
    have h2 : ∀ m : Nat, ((m : Int) - ((r.position : Int) - (r.ring : Int) + 1)) % 26 =
        ((m : Int) - ((r.position : Int) - (r.ring : Int) + 1) % 26) % 26 := by
      intro m
      conv_lhs => rw [Int.sub_emod]
      conv_rhs => rw [Int.sub_emod, Int.emod_emod_of_dvd _ (dvd_refl 26)]
    rw [h2]
  · decide

/-! ### Claim C3: `valid_reflector` -/

lemma reflectorCheck_eq_true (M : List Nat) (keys : List Nat) :
    reflectorCheck M keys = some true ↔
      ∀ k ∈ keys, k ∈ M ∧ M.getD k 0 = M.indexOf k := by
  induction keys with
  | nil => simp [reflectorCheck]
  | cons k ks ih =>
    simp only [reflectorCheck]
    split_ifs with h1 h2
    · constructor
      · intro hco; simp at hco
      · intro hall; exact absurd (hall k (List.mem_cons_self _ _)).2 h2
    · rw [ih]
      constructor
      · intro hall k' hk'
        rcases List.mem_cons.mp hk' with rfl | hk'
        · exact ⟨h1, not_not.mp h2⟩
        · exact hall k' hk'
      · intro hall k' hk'
        exact hall k' (List.mem_cons_of_mem _ hk')
    · constructor
      · intro hco; simp at hco
      · intro hall; exact absurd (hall k (List.mem_cons_self _ _)).1 h1

/-- Claim C3, amended: for a rotor whose wiring has 26 in-range entries,
`valid_reflector()` returns `True` iff the notch is absent and the wiring
is an involution (applying it twice returns every symbol to itself).  The
fixed-point-free part of the original claim is dropped: the check accepts
wirings with fixed points (see the counterexample). -/
theorem C3_valid_reflector (r : Rotor) (hlen : r.mapping.length = 26)
    (hlt : ∀ x ∈ r.mapping, x < 26) :
    r.valid_reflector = some true ↔
      r.notch = none ∧ Involution26 r.mapping := by
  cases hn : r.notch with
  | some v =>
    simp [Rotor.valid_reflector, hn]
  | none =>
    simp only [Rotor.valid_reflector, hn, true_and]
    rw [reflectorCheck_eq_true]
    constructor
    · intro hall i hi
      obtain ⟨hmem, heq⟩ := hall i (List.mem_range.mpr hi)
      have hj : r.mapping.indexOf i < r.mapping.length :=
        List.indexOf_lt_length.2 hmem
      rw [heq, List.getD_eq_getElem _ _ hj]
      exact List.getElem_indexOf hj
    · intro hinv k hk
      have hklt : k < 26 := List.mem_range.mp hk
      have hkl : k < r.mapping.length := by rw [hlen]; exact hklt
      have hjmem : r.mapping.getD k 0 ∈ r.mapping := by
        rw [List.getD_eq_getElem _ _ hkl]; exact List.getElem_mem hkl
      have hjl : r.mapping.getD k 0 < r.mapping.length := by
        rw [hlen]; exact hlt _ hjmem
      have hmem : k ∈ r.mapping := by
        have hik := hinv k hklt
        rw [← hik, List.getD_eq_getElem _ _ hjl]
        exact List.getElem_mem hjl
      refine ⟨hmem, ?_⟩
      have hj0 : r.mapping.indexOf k < r.mapping.length :=
        List.indexOf_lt_length.2 hmem
      have hj0lt : r.mapping.indexOf k < 26 := by rw [← hlen]; exact hj0
      have hval : r.mapping.getD (r.mapping.indexOf k) 0 = k := by
        rw [List.getD_eq_getElem _ _ hj0]; exact List.getElem_indexOf hj0
      have hfin := hinv (r.mapping.indexOf k) hj0lt
      rw [hval] at hfin
      exact hfin

/-- Claim C3, counterexample: the custom rotor with the identity wiring
(`Rotor(list('ABC...Z'))`) has no notch, and `valid_reflector()` returns
`True` for it, although every symbol is a fixed point of its mapping — so
`valid_reflector()` is *not* true only for fixed-point-free involutions as
claimed. -/
theorem C3_counterexample :
    (⟨List.range 26, 1, 0, none⟩ : Rotor).valid_reflector = some true ∧
      (⟨List.range 26, 1, 0, none⟩ : Rotor).mapping.getD 0 0 = 0 := by
  constructor
  · decide
  · decide

/-- Witness for C3: reflector `B` (no notch, involutive wiring) passes
`valid_reflector()`. -/
theorem C3_witness :
    (⟨reflBMapping, 1, 0, none⟩ : Rotor).valid_reflector = some true :=
  (C3_valid_reflector ⟨reflBMapping, 1, 0, none⟩ (by decide) (by decide)).mpr
    ⟨rfl, by unfold Involution26; decide⟩

/-! ### Claim C5: adding an already-connected lead -/

/-- Claim C5 is a code bug: on a board where the lead `AB` is already
connected, `add(PlugLead("AB"))` does not warn-and-return — both letters
of the lead are in `occupied_letters`, so the first guard fires before the
"already connected" warning is ever reached, and raising its `ValueError`
dies with an `AttributeError` while formatting the message (the f-string
accesses `pl.__first_letter`, name-mangled inside `class Plugboard` to the
nonexistent `pl._Plugboard__first_letter`).  The theorem evaluates `add`
at the failing input. -/
theorem C5_add_duplicate_raises :
    Plugboard.add ⟨[⟨0, 1⟩], [0, 1]⟩ ⟨0, 1⟩ = .error .attributeError := rfl

/-! ### Claim C6: `Plugboard.encode` -/

/-- Claim C6, counterexample: on a plugboard with no connected leads the
`for` loop of `encode` never executes and the trailing
`raise ValueError(...)` fires, so `encode('A')` raises instead of
returning `'A'` unchanged as the claim states for every plugboard state
"including a board with no connected leads". -/
theorem C6_counterexample : Plugboard.encode ⟨[], []⟩ 0 = none := rfl

/-- Claim C6, amended: for every plugboard with *at least one* connected
lead (satisfying the occupied-symbol invariant), `encode(s)` returns the
symbol paired with `s` when `s` belongs to some connected lead and returns
`s` unchanged otherwise; on a board with no connected leads `encode`
raises `ValueError` instead (see the counterexample). -/
theorem C6_encode (pb : Plugboard) (hne : pb.connections ≠ [])
    (hv : ∀ pl ∈ pb.connections, ValidLead pl)
    (hd : LeadsDisjoint pb.connections) (c : Nat) :
    (∀ pl ∈ pb.connections, pb.encode pl.first = some pl.last ∧
        pb.encode pl.last = some pl.first) ∧
    ((∀ pl ∈ pb.connections, c ≠ pl.first ∧ c ≠ pl.last) →
        pb.encode c = some c) := by
  constructor
  · intro pl hm
    have hc := pbFun_connected pb.connections (validLead_ne hv) hd pl hm
    rw [Plugboard.encode, encodeList_eq_pbFun _ hne,
      Plugboard.encode, encodeList_eq_pbFun _ hne, hc.1, hc.2]
    exact ⟨rfl, rfl⟩
  · intro hc
    rw [Plugboard.encode, encodeList_eq_pbFun _ hne,
      pbFun_unconnected _ _ hc]

/-- Witness for C6: the specification's concrete scenario — plugboard with
leads `SZ GT DV KU` yields `encode('K') == 'U'` and `encode('A') == 'A'`. -/
theorem C6_witness :
    Plugboard.encode pbSGDK 10 = some 20 ∧
      Plugboard.encode pbSGDK 0 = some 0 := by
  have h := C6_encode pbSGDK (by decide)
    (by unfold ValidLead; decide) (by unfold LeadsDisjoint; decide) 0
  exact ⟨(h.1 ⟨10, 20⟩ (by decide)).1, h.2 (by decide)⟩

/-! ### Claim C9: occupied letters are never released -/

/-- Claim C9, counterexample: connect `AB`, remove it, re-add it.  The
re-add raises `AttributeError` (the both-letters-occupied guard dies
formatting its message on a mis-mangled attribute), not the `ValueError`
stated in the claim. -/
theorem C9_counterexample :
    Plugboard.remove ⟨[⟨0, 1⟩], [0, 1]⟩ ⟨0, 1⟩ = .ok ⟨[], [0, 1]⟩ ∧
    Plugboard.add ⟨[], [0, 1]⟩ ⟨0, 1⟩ = .error .attributeError ∧
    PyErr.attributeError ≠ PyErr.valueError :=
  ⟨rfl, rfl, by decide⟩

/-- Claim C9, amended: `remove` and `reset` never release letters from the
board's `occupied_letters` set, so every subsequent `add` of a lead
reusing any such letter raises an exception — `ValueError` when exactly
one of the lead's letters is occupied, `AttributeError` when both are
(that branch's `ValueError` message accesses a mis-mangled private
attribute while being formatted). -/
theorem C9_occupied_leak :
    (∀ (pb pb' : Plugboard) (pl : PlugLead), pb.remove pl = .ok pb' →
      pb'.occupied_letters = pb.occupied_letters) ∧
    (∀ pb : Plugboard,
      (pb.reset none).1.occupied_letters = pb.occupied_letters) ∧
    (∀ (pb : Plugboard) (pl : PlugLead),
      (pl.first ∈ pb.occupied_letters ∧ pl.last ∈ pb.occupied_letters →
        pb.add pl = .error .attributeError) ∧
      (pl.first ∈ pb.occupied_letters ∧ pl.last ∉ pb.occupied_letters →
        pb.add pl = .error .valueError) ∧
      (pl.first ∉ pb.occupied_letters ∧ pl.last ∈ pb.occupied_letters →
        pb.add pl = .error .valueError)) := by
  refine ⟨?_, fun pb => rfl, ?_⟩
  · intro pb pb' pl h
    rw [Plugboard.remove] at h
    split_ifs at h with hm
    · cases h; rfl
  · intro pb pl
    refine ⟨?_, ?_, ?_⟩
    · intro ⟨h1, h2⟩
      rw [Plugboard.add, if_pos ⟨h1, h2⟩]
    · intro ⟨h1, h2⟩
      rw [Plugboard.add, if_neg (by tauto), if_pos h1]
    · intro ⟨h1, h2⟩
      rw [Plugboard.add, if_neg (by tauto), if_neg h1, if_pos h2]

/-- Witness for C9: concrete instances of the amended behaviour — after
`AB` has occupied its letters, re-adding `AB` raises `AttributeError` and
adding `AC` raises `ValueError`. -/
theorem C9_witness :
    Plugboard.add ⟨[], [0, 1]⟩ ⟨0, 1⟩ = .error .attributeError ∧
    Plugboard.add ⟨[], [0, 1]⟩ ⟨0, 2⟩ = .error .valueError :=
  ⟨(C9_occupied_leak.2.2 ⟨[], [0, 1]⟩ ⟨0, 1⟩).1 (by decide),
   (C9_occupied_leak.2.2 ⟨[], [0, 1]⟩ ⟨0, 2⟩).2.1 (by decide)⟩

/-- A machine with the two rightmost rotors exactly at their notches
(rotor `II` at `'E'`, rotor `III` at `'V'`). -/
def machineAtNotches : List Rotor :=
  [⟨reflBMapping, 1, 0, none⟩,
   ⟨rotorIMapping, 1, 0, some 16⟩,
   ⟨rotorIIMapping, 1, 4, some 4⟩,
   ⟨rotorIIIMapping, 1, 21, some 21⟩]

/-- Witness for C7: the double step on the concrete machine `B, I, II, III`
with rotors `II`/`III` at their notches. -/
theorem C7_witness :
    Commercial_enigma.rotate machineAtNotches =
      ((machineAtNotches.set (machineAtNotches.length - 1)
          (machineAtNotches.getD (machineAtNotches.length - 1)
            default).advance_position).set
        (machineAtNotches.length - 2)
          (machineAtNotches.getD (machineAtNotches.length - 2)
            default).advance_position).set
        (machineAtNotches.length - 3)
          (machineAtNotches.getD (machineAtNotches.length - 3)
            default).advance_position :=
  C7_double_step machineAtNotches (Or.inl (by decide)) (by decide) (by decide)

/-! ### The extended 36-symbol machine (`EnigmaAdvanced.py`)

`AdvancedRotor.lineup` is `A..Z` followed by `0..9`; symbols are modelled
by their lineup index (letters `0..25`, digits `26..35`).  Only the
custom-numeric branch of `AdvancedRotor` (`tuple_bool`/`list_bool`, the
36-symbol rotors) is embedded below: it is the branch exercised by every
machine in the claims; the remaining branch delegates to the classic
`Rotor` embedded above. -/

/-- The `rotor_input` retained by an `AdvancedRotor` (the custom wiring
and its optional notch), used by `get_rotor_types` to rebuild machines. -/
structure ARotorSpec where
  mapping : List Nat
  notch : Option Nat
  deriving DecidableEq, Repr, Inhabited

/-- A custom-numeric `AdvancedRotor`: wiring over the 36-symbol lineup,
ring (1..36), position and optional notch as lineup indices, and the
originally supplied spec. -/
structure ARotor where
  rotor_input : ARotorSpec
  mapping : List Nat
  ring : Nat
  position : Nat
  notch : Option Nat
  deriving DecidableEq, Repr, Inhabited

namespace ARotor

/-- `AdvancedRotor.advance_position` (numeric branch): `'9'` (index 35)
wraps to `'A'` (index 0), otherwise the next lineup symbol. -/
def advance_position (r : ARotor) : ARotor :=
  { r with position := if r.position = 35 then 0 else r.position + 1 }

/-- `AdvancedRotor.encode_right_to_left` (numeric branch). -/
def encode_right_to_left (r : ARotor) (c : Nat) : Nat := r.mapping.getD c 0

/-- `AdvancedRotor.encode_left_to_right` (numeric branch). -/
def encode_left_to_right (r : ARotor) (c : Nat) : Nat := r.mapping.indexOf c

/-- `AdvancedRotor.encode_offset_rtl` (numeric branch): offset arithmetic
mod 36. -/
def encode_offset_rtl (r : ARotor) (c : Nat) : Nat :=
  let offset : Int := (r.position : Int) - (r.ring : Int) + 1
  let offset_char : Nat := (((c : Int) + offset) % 36).toNat
  let encode_char : Nat := r.encode_right_to_left offset_char
  (((encode_char : Int) - offset) % 36).toNat

/-- `AdvancedRotor.encode_offset_ltr` (numeric branch). -/
def encode_offset_ltr (r : ARotor) (c : Nat) : Nat :=
  let offset : Int := (r.position : Int) - (r.ring : Int) + 1
  let offset_char : Nat := (((c : Int) + offset) % 36).toNat
  let encode_char : Nat := r.encode_left_to_right offset_char
  (((encode_char : Int) - offset) % 36).toNat

end ARotor

namespace Commercial_enigma_advanced

/-- `Commercial_enigma_advanced.rotate`: identical stepping logic to the
classic machine. -/
def rotate (rs : List ARotor) : List ARotor :=
  let n := rs.length
  let rot1 := (rs.getD (n - 1) default).notch == some (rs.getD (n - 1) default).position
  let rot2 := (rs.getD (n - 2) default).notch == some (rs.getD (n - 2) default).position
  let rs1 := rs.set (n - 1) (rs.getD (n - 1) default).advance_position
  let rs2 := if rot1 then rs1.set (n - 2) (rs1.getD (n - 2) default).advance_position else rs1
  if rot2 then
    let rs3 := if ¬rot1 then rs2.set (n - 2) (rs2.getD (n - 2) default).advance_position else rs2
    rs3.set (n - 3) (rs3.getD (n - 3) default).advance_position
  else rs2

/-- `Commercial_enigma_advanced.encode`: rotate, right-to-left pass over
the reversed list, left-to-right pass over `rotors[1:]`. -/
def encode (rs : List ARotor) (c : Nat) : List ARotor × Nat :=
  let rs' := rotate rs
  let c1 := rs'.reverse.foldl (fun x r => r.encode_offset_rtl x) c
  let c2 := (rs'.drop 1).foldl (fun x r => r.encode_offset_ltr x) c1
  (rs', c2)

/-- The settings loop of `ring_settings`: assign `rotors[i+1].ring =
rings[i]` for each supplied ring. -/
def applyRings : List ARotor → List Nat → List ARotor
  | rs, [] => rs
  | [], _ => []
  | r :: rs, g :: gs => { r with ring := g } :: applyRings rs gs

/-- The settings loop of `position_settings`. -/
def applyPositions : List ARotor → List Nat → List ARotor
  | rs, [] => rs
  | [], _ => []
  | r :: rs, p :: ps => { r with position := p } :: applyPositions rs ps

/-- The `Commercial_enigma_advanced` constructor: build each rotor from
its spec with defaults `ring=1`, `position='A'`, then apply the optional
ring and position settings to `rotors[1:]`.  The constructor's validation
(4-or-5 rotors, reflector validity, setting ranges) is not re-modelled:
every construction performed in this development satisfies it. -/
def mk (specs : List ARotorSpec) (rings : Option (List Nat))
    (positions : Option (List Nat)) : List ARotor :=
  let base : List ARotor := specs.map (fun sp => ⟨sp, sp.mapping, 1, 0, sp.notch⟩)
  let withR := match rings with
    | none => base
    | some g =>
      match base with
      | [] => []
      | r0 :: rest => r0 :: applyRings rest g
  match positions with
  | none => withR
  | some p =>
    match withR with
    | [] => []
    | r0 :: rest => r0 :: applyPositions rest p

end Commercial_enigma_advanced

/-- `AdvancedEnigma.encode` for one symbol: optional plugboard before and
after the machine pass (the `AdvancedPlugboard.encode` loop is identical
to the classic `Plugboard.encode` loop embedded above). -/
def aeEncodeChar (pb : Option Plugboard) (rs : List ARotor) (c : Nat) :
    List ARotor × Option Nat :=
  match pb with
  | none =>
    let p := Commercial_enigma_advanced.encode rs c
    (p.1, some p.2)
  | some pbb =>
    match Plugboard.encodeList pbb.connections c with
    | none => (rs, none)
    | some c1 =>
      let p := Commercial_enigma_advanced.encode rs c1
      match Plugboard.encodeList pbb.connections p.2 with
      | none => (p.1, none)
      | some c2 => (p.1, some c2)

/-- `AdvancedEnigma.encode_string`: fold `encode`, threading the machine
state; an exception aborts with the state reached so far. -/
def aeEncodeString (pb : Option Plugboard) (rs : List ARotor) :
    List Nat → List ARotor × Option (List Nat)
  | [] => (rs, some [])
  | c :: cs =>
    match aeEncodeChar pb rs c with
    | (rs1, none) => (rs1, none)
    | (rs1, some d) =>
      match aeEncodeString pb rs1 cs with
      | (rs2, none) => (rs2, none)
      | (rs2, some ds) => (rs2, some (d :: ds))

/-- The three instruction tags of the advanced protocol
(`'S'`, `'R'`, `'P'`). -/
inductive Instr where
  | S
  | R
  | P
  deriving DecidableEq, Repr

/-- `AdvancedEnigma` state: the original construction parameters retained
in `self.initials`, the live machine, the optional plugboard and the
instruction order. -/
structure AEState where
  initial_specs : List ARotorSpec
  initial_rings : Option (List Nat)
  initial_positions : Option (List Nat)
  ce : List ARotor
  pb : Option Plugboard
  advanced : List Instr

/-- `AdvancedEnigma.swap_perms = list(itertools.permutations(range(3), 3))`
in itertools order. -/
def swap_perms : List (List Nat) :=
  [[0, 1, 2], [0, 2, 1], [1, 0, 2], [1, 2, 0], [2, 0, 1], [2, 1, 0]]

/-- The `i`-th element of `AdvancedEnigma.ring_perms =
list(itertools.product(range(1, 37), repeat=3))` (lexicographic triples). -/
def ring_perms_get (i : Nat) : List Nat :=
  [1 + i / 1296 % 36, 1 + i / 36 % 36, 1 + i % 36]

/-- The `i`-th element of `AdvancedEnigma.position_perms =
list(itertools.product(AdvancedRotor.lineup, repeat=3))`, as lineup
indices. -/
def position_perms_get (i : Nat) : List Nat :=
  [i / 1296 % 36, i / 36 % 36, i % 36]

/-- The outcome of the random draws made by `auxiliary_string` /
`random_gen`, passed explicitly: the three session indices
(`self.swapS/swapR/swapP`), one padding batch (`rm.sample` of 1..5
distinct letters) per instruction, and the end-marker letter
(`rm.choice`). -/
structure AEDraws where
  dS : Nat
  dR : Nat
  dP : Nat
  pads : List (List Nat)
  repeater : Nat
  deriving Repr

/-- `random_gen(instruction)` draws and returns the decimal rendering of
the corresponding session index. -/
def instrDraw (d : AEDraws) : Instr → Nat
  | .S => d.dS
  | .R => d.dR
  | .P => d.dP

/-- Decimal digits of `str(n)` as lineup indices (digits are `26..35`). -/
def decimalIdx (n : Nat) : List Nat :=
  if n = 0 then [26] else (Nat.digits 10 n).reverse.map (fun d => d + 26)

/-- The instruction part of `auxiliary_string`: for each instruction in
order, the decimal digits of its drawn index followed by that iteration's
random padding letters. -/
def auxBody (d : AEDraws) : List Instr → List (List Nat) → List Nat
  | [], _ => []
  | i :: is, pads =>
    decimalIdx (instrDraw d i) ++ pads.headD [] ++ auxBody d is pads.tail

/-- `AdvancedEnigma.auxiliary_string`: instruction digits and padding,
then the doubled repeater letter. -/
def auxiliary_string (advanced : List Instr) (d : AEDraws) : List Nat :=
  auxBody d advanced d.pads ++ [d.repeater, d.repeater]

/-- Python slicing `s[i:j]` for the nonnegative bounds produced by the
protocol. -/
def pySlice (s : List Nat) (i j : Int) : List Nat :=
  (s.take j.toNat).drop i.toNat

/-- `[string[i:j] for i, j in zip([0] + unpacked, unpacked)]`. -/
def partitions (s : List Nat) (u : List Int) : List (List Nat) :=
  (((0 : Int) :: u).zip u).map (fun p => pySlice s p.1 p.2)

/-- The boundary guard of `encode_advanced_string` (source order:
`unpacked != sorted(unpacked)`, duplicate check, `max(unpacked) >
len(string) - 1`, `min(unpacked) <= 0`; `max([])` itself raises
`ValueError`). -/
def guardEnc (unpacked : List Int) (slen : Nat) : Option PyErr :=
  if ¬ unpacked.Pairwise (· ≤ ·) then some .valueError
  else if ¬ unpacked.Nodup then some .valueError
  else
    match unpacked.max? with
    | none => some .valueError
    | some mx =>
      if mx > (slen : Int) - 1 then some .valueError
      else
        match unpacked.min? with
        | none => some .valueError
        | some mn => if mn ≤ 0 then some .valueError else none

/-- The boundary guard of `decode_advanced_string`: same checks but
*without* the `max` bound (that is only tested later, against the
recovered message). -/
def guardDec (unpacked : List Int) : Option PyErr :=
  if ¬ unpacked.Pairwise (· ≤ ·) then some .valueError
  else if ¬ unpacked.Nodup then some .valueError
  else
    match unpacked.min? with
    | none => some .valueError
    | some mn => if mn ≤ 0 then some .valueError else none

/-- The alternating partition loop shared verbatim by
`encode_advanced_string` (lines 390-402, all settings defined) and
`decode_advanced_string` (lines 446-458, where the session/original
settings are locals that may never have been assigned — reading such a
local raises `NameError`, modelled by the `none` cases). -/
def partLoop (pb : Option Plugboard) (sspecs : Option (List ARotorSpec))
    (cspecs : List ARotorSpec) (srings crings : Option (List Nat)) :
    List ARotor → Option (List Nat) → Option (List Nat) → Bool →
      List (List Nat) → List ARotor × Except PyErr (List Nat)
  | ce, _, _, _, [] => (ce, .ok [])
  | ce, spos, cpos, active, bit :: bits =>
    if active then
      match sspecs, srings, spos with
      | some ss, some sr, some sp =>
        let m0 := Commercial_enigma_advanced.mk ss (some sr) (some sp)
        match aeEncodeString pb m0 bit with
        | (m1, none) => (m1, .error .valueError)
        | (m1, some out1) =>
          let sp' := (m1.map (·.position)).drop 1
          let q := partLoop pb sspecs cspecs srings crings m1 (some sp') cpos
            (!active) bits
          (q.1, q.2.map (fun rest => out1 ++ rest))
      | _, _, _ => (ce, .error .nameError)
    else
      match crings, cpos with
      | some cr, some cp =>
        let m0 := Commercial_enigma_advanced.mk cspecs (some cr) (some cp)
        match aeEncodeString pb m0 bit with
        | (m1, none) => (m1, .error .valueError)
        | (m1, some out1) =>
          let cp' := (m1.map (·.position)).drop 1
          let q := partLoop pb sspecs cspecs srings crings m1 spos (some cp')
            (!active) bits
          (q.1, q.2.map (fun rest => out1 ++ rest))
      | _, _ => (ce, .error .nameError)

/-- `AdvancedEnigma.encode_advanced_string`, with the random draws passed
explicitly.  Returns the final object state (the Python method mutates
`self.ce`) together with the result or the raised exception. -/
def encode_advanced_string (ae : AEState) (d : AEDraws) (s : List Nat)
    (unpacked : List Int) : AEState × Except PyErr (List Nat) :=
  match guardEnc unpacked s.length with
  | some e => (ae, .error e)
  | none =>
    let pre := auxiliary_string ae.advanced d
    match aeEncodeString ae.pb ae.ce pre with
    | (m1, none) => ({ ae with ce := m1 }, .error .valueError)
    | (m1, some prencode) =>
      let current_rotors := m1.map (·.rotor_input)
      let just3 := current_rotors.drop (current_rotors.length - 3)
      let swapped_rotors := current_rotors.take (current_rotors.length - 3) ++
        (swap_perms.getD d.dS []).map (fun i => just3.getD i default)
      let current_rings := (m1.map (·.ring)).drop 1
      let current_positions := (m1.map (·.position)).drop 1
      let swapped_rings :=
        if current_rotors.length = 5
        then current_rings.take 1 ++ ring_perms_get d.dR
        else ring_perms_get d.dR
      let swapped_positions :=
        if current_rotors.length = 5
        then current_positions.take 1 ++ position_perms_get d.dP
        else position_perms_get d.dP
      let parts := partitions s (unpacked ++ [(s.length : Int)])
      let q := partLoop ae.pb (some swapped_rotors) current_rotors
        (some swapped_rings) (some current_rings) m1 (some swapped_positions)
        (some current_positions) true parts
      match q.2 with
      | .error e => ({ ae with ce := q.1 }, .error e)
      | .ok enc => ({ ae with ce := q.1 }, .ok (prencode ++ enc))

/-- The `re.search(r'([A-Z])\1', ...)` marker hunt: the span end of the
first adjacent equal pair of *letters* (lineup index < 26; digits do not
match `[A-Z]`), `none` when absent. -/
def findDoubled : Nat → List Nat → Option Nat
  | _, [] => none
  | _, [_] => none
  | i, a :: b :: rest =>
    if a = b ∧ a < 26 then some (i + 2) else findDoubled (i + 1) (b :: rest)

/-- `re.findall(r'\d+', ...)`: the maximal runs of digit symbols
(lineup index ≥ 26), in order. -/
def digitRuns (cur : List Nat) : List Nat → List (List Nat)
  | [] => if cur = [] then [] else [cur.reverse]
  | c :: rest =>
    if 26 ≤ c then digitRuns (c :: cur) rest
    else (if cur = [] then [] else [cur.reverse]) ++ digitRuns [] rest

/-- `int(run)` on a big-endian digit run. -/
def parseDigits (run : List Nat) : Nat :=
  run.foldl (fun acc d => acc * 10 + (d - 26)) 0

/-- One step of the `for setting, param in zip(settings, self.advanced)`
loop of `decode_advanced_string`: each branch assigns some of the local
variables (modelled as `Option`-valued state, `none` = never assigned). -/
def decodeSettingsLoop (ce : List ARotor) (current_rotors : List ARotorSpec) :
    List (Nat × Instr) →
      Option (List ARotorSpec) × Option (List Nat) × Option (List Nat) ×
        Option (List Nat) × Option (List Nat) →
      Option (List ARotorSpec) × Option (List Nat) × Option (List Nat) ×
        Option (List Nat) × Option (List Nat)
  | [], st => st
  | (setting, param) :: rest, (swRot, curR, swR, curP, swP) =>
    match param with
    | .S =>
      let just3 := current_rotors.drop (current_rotors.length - 3)
      let swRot' := current_rotors.take (current_rotors.length - 3) ++
        (swap_perms.getD setting []).map (fun i => just3.getD i default)
      decodeSettingsLoop ce current_rotors rest (some swRot', curR, swR, curP, swP)
    | .R =>
      let curR' := (ce.map (·.ring)).drop 1
      let swR' :=
        if current_rotors.length = 5
        then curR'.take 1 ++ ring_perms_get setting
        else ring_perms_get setting
      decodeSettingsLoop ce current_rotors rest (swRot, some curR', some swR', curP, swP)
    | .P =>
      let curP' := (ce.map (·.position)).drop 1
      let swP' :=
        if current_rotors.length = 5
        then curP'.take 1 ++ position_perms_get setting
        else position_perms_get setting
      decodeSettingsLoop ce current_rotors rest (swRot, curR, swR, some curP', some swP')

/-- `AdvancedEnigma.decode_advanced_string`.  Order of effects as in the
source: boundary guard (without the max bound), re-encode the *whole*
received string through the live machine (mutating it), locate the first
doubled letter (`None.span()` raises `AttributeError` when absent), only
then test the max bound against the recovered message, parse the digit
runs, rebuild the machine from `self.initials`, burn the instruction
prefix through it, reconstruct the session settings and run the identical
alternating partition loop. -/
def decode_advanced_string (ae : AEState) (s : List Nat)
    (unpacked : List Int) : AEState × Except PyErr (List Nat) :=
  match guardDec unpacked with
  | some e => (ae, .error e)
  | none =>
    match aeEncodeString ae.pb ae.ce s with
    | (m1, none) => ({ ae with ce := m1 }, .error .valueError)
    | (m1, some jumbled) =>
      let ae1 := { ae with ce := m1 }
      match findDoubled 0 jumbled with
      | none => (ae1, .error .attributeError)
      | some end_instruction =>
        let instruction := jumbled.take end_instruction
        let message := s.drop end_instruction
        match unpacked.max? with
        | none => (ae1, .error .valueError)
        | some mx =>
          if mx > (message.length : Int) - 1 then (ae1, .error .valueError)
          else
            let settings := (digitRuns [] instruction).map parseDigits
            let m2 := Commercial_enigma_advanced.mk ae.initial_specs
              ae.initial_rings ae.initial_positions
            match aeEncodeString ae.pb m2 instruction with
            | (m3, none) => ({ ae with ce := m3 }, .error .valueError)
            | (m3, some _) =>
              let current_rotors := m3.map (·.rotor_input)
              let st := decodeSettingsLoop m3 current_rotors
                (settings.zip ae.advanced) (none, none, none, none, none)
              let parts := partitions message (unpacked ++ [(message.length : Int)])
              let q := partLoop ae.pb st.1 current_rotors st.2.2.1 st.2.1 m3
                st.2.2.2.2 st.2.2.2.1 true parts
              ({ ae with ce := q.1 }, q.2)

/-! ### Concrete advanced machine (the repository's own test rotors) -/

/-- Lineup-index conversion: `'A'..'Z'` to `0..25`, `'0'..'9'` to
`26..35`. -/
def lineupIdx (c : Char) : Nat :=
  if 65 ≤ c.toNat then c.toNat - 65 else c.toNat - 48 + 26

/-- The 36-symbol reflector `rflctr` of `EnigmaAdvanced.py`. -/
def rflctrSpec : ARotorSpec :=
  ⟨"FVPJIAOYEDRZXWGCTKUQSBNMHL0627981354".toList.map lineupIdx, none⟩

/-- The 36-symbol rotor `cer1` (notch `'4'`). -/
def cer1Spec : ARotorSpec :=
  ⟨"4KMFL90DQVZNTOWY5XUSPAIBRCJ3E6127HG8".toList.map lineupIdx,
   some (lineupIdx '4')⟩

/-- The 36-symbol rotor `cer2` (notch `'J'`). -/
def cer2Spec : ARotorSpec :=
  ⟨"4KMWL9DQVZNTOFY05XUSP1IBRCJ3E6A27HG8".toList.map lineupIdx,
   some (lineupIdx 'J')⟩

/-- The 36-symbol rotor `cer3` (no notch). -/
def cer3Spec : ARotorSpec :=
  ⟨"4KC0WL9DQVZNTOFY5XUSP1IBRMJ3E6A27HG8".toList.map lineupIdx, none⟩

/-- The rotor list `[rflctr, cer3, cer2, cer1]` of the repository's
4-rotor `AdvancedEnigma` test. -/
def aeSpecs : List ARotorSpec := [rflctrSpec, cer3Spec, cer2Spec, cer1Spec]

/-- `AdvancedEnigma([rflctr, cer3, cer2, cer1], [3, 31, 23],
['4', 'D', 'T'])` with no plugboard and the default instruction order
`['S', 'R', 'P']`. -/
def aeInit : AEState :=
  ⟨aeSpecs, some [3, 31, 23], some [30, 3, 19],
   Commercial_enigma_advanced.mk aeSpecs (some [3, 31, 23]) (some [30, 3, 19]),
   none, [.S, .R, .P]⟩

/-- A benign random outcome: session indices 0/0/0, padding batches
`A`, `B`, `C`, marker letter `X` — the auxiliary string is `0A0B0CXX`. -/
def drawsGood : AEDraws := ⟨0, 0, 0, [[0], [1], [2]], 23⟩

/-- The colliding random outcome: same, but the third padding batch is the
single letter `X` and the marker letter is also `X` — the auxiliary string
is `0A0B0XXX`, ending in three repeated letters. -/
def drawsBad : AEDraws := ⟨0, 0, 0, [[0], [1], [23]], 23⟩

/-- The plaintext `"HELLOWORLD"`. -/
def pMsg : List Nat := [7, 4, 11, 11, 14, 22, 14, 17, 11, 3]

/-- The ciphertext produced by `encode_advanced_string` on `pMsg` with
boundaries `[3, 7]` under the benign draw (used by the C4
counterexample). -/
def tGood : List Nat :=
  [11, 21, 6, 4, 4, 2, 9, 4, 34, 2, 10, 12, 15, 8, 34, 11, 9, 1]

/-! ### Claim C2: the advanced round trip -/

/-- Claim C2 is a code bug (already flagged as a latent correctness gap by
the specification's design notes): the decoder locates the end-of-
instruction marker as the *first* doubled adjacent letter of the
re-encoded prefix, so for the possible random outcome in which the final
padding letter equals the marker letter the auxiliary string ends in three
repeated letters, the match lands one position early, the prefix/message
split shifts by one and decoding returns a wrong (here even one symbol
longer) string.  Evaluated on the repository's own 4-rotor test machine,
plaintext `"HELLOWORLD"`, boundaries `[3, 7]`, session indices 0/0/0,
padding batches `A`, `B`, `X`, marker `X`. -/
theorem C2_advanced_round_trip_fails :
    (encode_advanced_string aeInit drawsBad pMsg [3, 7]).2 =
      .ok [11, 21, 6, 4, 4, 17, 9, 4, 34, 2, 10, 12, 15, 8, 34, 11, 9, 1] ∧
    (decode_advanced_string aeInit
        [11, 21, 6, 4, 4, 17, 9, 4, 34, 2, 10, 12, 15, 8, 34, 11, 9, 1]
        [3, 7]).2 =
      .ok [15, 32, 14, 26, 11, 14, 22, 12, 9, 10, 9] ∧
    ([15, 32, 14, 26, 11, 14, 22, 12, 9, 10, 9] : List Nat) ≠ pMsg := by
  refine ⟨rfl, rfl, ?_⟩
  decide

/-! ### Claim C4: boundary validation order -/

lemma foldl_max_facts (as : List Int) (a : Int) :
    a ≤ as.foldl max a ∧ ∀ x ∈ as, x ≤ as.foldl max a := by
  induction as generalizing a with
  | nil => simp
  | cons b bs ih =>
    simp only [List.foldl_cons]
    obtain ⟨h1, h2⟩ := ih (max a b)
    refine ⟨le_trans (le_max_left a b) h1, ?_⟩
    intro x hx
    rcases List.mem_cons.mp hx with rfl | hx
    · exact le_trans (le_max_right a x) h1
    · exact h2 x hx

lemma foldl_min_facts (as : List Int) (a : Int) :
    as.foldl min a ≤ a ∧ ∀ x ∈ as, as.foldl min a ≤ x := by
  induction as generalizing a with
  | nil => simp
  | cons b bs ih =>
    simp only [List.foldl_cons]
    obtain ⟨h1, h2⟩ := ih (min a b)
    refine ⟨le_trans h1 (min_le_left a b), ?_⟩
    intro x hx
    rcases List.mem_cons.mp hx with rfl | hx
    · exact le_trans h1 (min_le_right a x)
    · exact h2 x hx

lemma max?_ge (u : List Int) (x : Int) (hx : x ∈ u) (mx : Int)
    (h : u.max? = some mx) : x ≤ mx := by
  cases u with
  | nil => cases hx
  | cons a as =>
    have heq : mx = as.foldl max a := by
      rw [List.max?_cons'] at h
      exact (Option.some_inj.mp h).symm
    subst heq
    rcases List.mem_cons.mp hx with rfl | hx
    · exact (foldl_max_facts as x).1
    · exact (foldl_max_facts as a).2 x hx

lemma min?_le (u : List Int) (x : Int) (hx : x ∈ u) (mn : Int)
    (h : u.min? = some mn) : mn ≤ x := by
  cases u with
  | nil => cases hx
  | cons a as =>
    have heq : mn = as.foldl min a := by
      rw [List.min?_cons'] at h
      exact (Option.some_inj.mp h).symm
    subst heq
    rcases List.mem_cons.mp hx with rfl | hx
    · exact (foldl_min_facts as x).1
    · exact (foldl_min_facts as a).2 x hx

lemma guardEnc_some (u : List Int) (slen : Nat)
    (H : ¬ u.Pairwise (· < ·) ∨ (∃ x ∈ u, x ≤ 0) ∨
      (∃ x ∈ u, (slen : Int) - 1 < x)) :
    guardEnc u slen = some .valueError := by
  unfold guardEnc
  by_cases h1 : u.Pairwise (· ≤ ·)
  · rw [if_neg (not_not.mpr h1)]
    by_cases h2 : u.Nodup
    · rw [if_neg (not_not.mpr h2)]
      have hlt : u.Pairwise (· < ·) :=
        (h1.and h2).imp (fun h => lt_of_le_of_ne h.1 h.2)
      have hne : u ≠ [] := by
        intro he
        subst he
        rcases H with H | ⟨x, hx, _⟩ | ⟨x, hx, _⟩
        · exact H (List.Pairwise.nil)
        · cases hx
        · cases hx
      split
      · next heq => exact absurd (List.max?_eq_none_iff.mp heq) hne
      · next mx heq =>
        rcases H with H | H | H
        · exact absurd hlt H
        · obtain ⟨x, hx, hx0⟩ := H
          by_cases h3 : mx > (slen : Int) - 1
          · rw [if_pos h3]
          · rw [if_neg h3]
            split
            · next heq2 =>
              exact absurd (List.min?_eq_none_iff.mp heq2) hne
            · next mn heq2 =>
              have hle := min?_le u x hx mn heq2
              rw [if_pos (by omega)]
        · obtain ⟨x, hx, hxb⟩ := H
          have hge := max?_ge u x hx mx heq
          rw [if_pos (by omega)]
    · rw [if_pos h2]
  · rw [if_pos h1]

lemma guardDec_some (u : List Int)
    (H : ¬ u.Pairwise (· < ·) ∨ (∃ x ∈ u, x ≤ 0)) :
    guardDec u = some .valueError := by
  unfold guardDec
  by_cases h1 : u.Pairwise (· ≤ ·)
  · rw [if_neg (not_not.mpr h1)]
    by_cases h2 : u.Nodup
    · rw [if_neg (not_not.mpr h2)]
      have hlt : u.Pairwise (· < ·) :=
        (h1.and h2).imp (fun h => lt_of_le_of_ne h.1 h.2)
      have hne : u ≠ [] := by
        intro he
        subst he
        rcases H with H | ⟨x, hx, _⟩
        · exact H (List.Pairwise.nil)
        · cases hx
      split
      · next heq => exact absurd (List.min?_eq_none_iff.mp heq) hne
      · next mn heq =>
        rcases H with H | H
        · exact absurd hlt H
        · obtain ⟨x, hx, hx0⟩ := H
          have hle := min?_le u x hx mn heq
          rw [if_pos (by omega)]
    · rw [if_pos h2]
  · rw [if_pos h1]

/-- Claim C4, amended: `encode_advanced_string` rejects every malformed
boundary list (not strictly increasing — which covers duplicates —,
non-positive, or exceeding the message bound) before any encoding, with no
machine-state mutation; `decode_advanced_string` does the same for
non-strictly-increasing and non-positive lists, but its
exceeding-the-bounds check runs only *after* the whole received string has
been re-encoded through the machine, so after that particular failure the
rotor-position advance is observable (see the counterexample). -/
theorem C4_boundary_guards :
    (∀ (ae : AEState) (d : AEDraws) (s : List Nat) (u : List Int),
      (¬ u.Pairwise (· < ·) ∨ (∃ x ∈ u, x ≤ 0) ∨
        (∃ x ∈ u, (s.length : Int) - 1 < x)) →
      encode_advanced_string ae d s u = (ae, .error .valueError)) ∧
    (∀ (ae : AEState) (s : List Nat) (u : List Int),
      (¬ u.Pairwise (· < ·) ∨ (∃ x ∈ u, x ≤ 0)) →
      decode_advanced_string ae s u = (ae, .error .valueError)) := by
  constructor
  · intro ae d s u H
    have hg := guardEnc_some u s.length H
    simp only [encode_advanced_string, hg]
  · intro ae s u H
    have hg := guardDec_some u H
    simp only [decode_advanced_string, hg]

/-- Claim C4, counterexample: a decode call whose boundary list exceeds
the message bounds (`[100]` against an 18-symbol ciphertext) raises
`ValueError`, but only after `encode_string` has re-encoded the whole
received string: the failed call leaves the machine with advanced rotor
positions (`['A','4','E','B']` instead of the initial `['A','4','D','T']`),
refuting "no machine-state mutation is observable after a failed call". -/
theorem C4_counterexample :
    (decode_advanced_string aeInit tGood [100]).2 = .error .valueError ∧
    (decode_advanced_string aeInit tGood [100]).1.ce.map
        (fun (r : ARotor) => r.position) = [0, 30, 4, 1] ∧
    aeInit.ce.map (fun (r : ARotor) => r.position) = [0, 30, 3, 19] ∧
    ([0, 30, 4, 1] : List Nat) ≠ [0, 30, 3, 19] := by
  refine ⟨rfl, rfl, rfl, ?_⟩
  decide

/-- Witness for C4: a non-positive boundary is rejected by the encoder and
an unsorted list by the decoder, both with the machine state returned
unchanged. -/
theorem C4_witness :
    encode_advanced_string aeInit drawsGood pMsg [0] =
      (aeInit, .error .valueError) ∧
    decode_advanced_string aeInit tGood [7, 3] =
      (aeInit, .error .valueError) :=
  ⟨C4_boundary_guards.1 aeInit drawsGood pMsg [0]
      (Or.inr (Or.inl ⟨0, by decide, by decide⟩)),
   C4_boundary_guards.2 aeInit tGood [7, 3] (Or.inl (by decide))⟩

/-! ### Claim C10: `swap_rotors` -/

/-- The fields of a `Commercial_enigma_advanced` relevant to
`swap_rotors`. -/
structure CEAState where
  rotors : List ARotor
  ring_length : Int
  position_length : Int

/-- `Commercial_enigma_advanced.swap_rotors`: same code as the classic
version. -/
def Commercial_enigma_advanced.swap_rotors {α : Type} (m : CEAState)
    (rotors : List α) (build : α → ARotor) : Except PyErr CEAState :=
  if ¬(rotors.length = 4 ∨ rotors.length = 5) then .error .valueError
  else
    match pyLen (.vint m.ring_length) with
    | .error e => .error e
    | .ok k =>
      if rotors.length ≠ k + 1 then .error .valueError
      else
        match pyLen (.vint m.position_length) with
        | .error e => .error e
        | .ok k' =>
          if rotors.length ≠ k' + 1 then .error .valueError
          else .ok { m with rotors := rotors.map build }

/-- Claim C10: for every list of 4 or 5 rotor specifications,
`Commercial_enigma.swap_rotors` (and likewise
`Commercial_enigma_advanced.swap_rotors`) raises `TypeError` before
replacing any rotor: its guard evaluates `len(self.ring_length)` with
`ring_length` a plain integer, so the rotor-replacement assignment after
the guard is unreachable for any input. -/
theorem C10_swap_rotors_typeerror :
    (∀ {α : Type} (m : CEState) (rotors : List α) (build : α → Rotor),
      (rotors.length = 4 ∨ rotors.length = 5) →
      Commercial_enigma.swap_rotors m rotors build = .error .typeError) ∧
    (∀ {α : Type} (m : CEAState) (rotors : List α) (build : α → ARotor),
      (rotors.length = 4 ∨ rotors.length = 5) →
      Commercial_enigma_advanced.swap_rotors m rotors build =
        .error .typeError) := by
  constructor
  · intro α m rotors build h
    simp only [Commercial_enigma.swap_rotors, pyLen]
    rw [if_neg (not_not.mpr h)]
  · intro α m rotors build h
    simp only [Commercial_enigma_advanced.swap_rotors, pyLen]
    rw [if_neg (not_not.mpr h)]

/-- Witness for C10: the concrete `TypeError` on both machines with a
4-element rotor list. -/
theorem C10_witness :
    Commercial_enigma.swap_rotors ⟨machineB123, 3, 3⟩ [(), (), (), ()]
      (fun _ => default) = .error .typeError ∧
    Commercial_enigma_advanced.swap_rotors ⟨aeInit.ce, 3, 3⟩ [(), (), (), ()]
      (fun _ => default) = .error .typeError :=
  ⟨C10_swap_rotors_typeerror.1 ⟨machineB123, 3, 3⟩ [(), (), (), ()] _
      (Or.inl rfl),
   C10_swap_rotors_typeerror.2 ⟨aeInit.ce, 3, 3⟩ [(), (), (), ()] _
      (Or.inl rfl)⟩
